import Mathlib

/-!
Shallow embedding of the cax cellular-automata core, file src/cax/core/ca.py.

A CA composes a perceive transform and an update transform.  A single step
computes the perception of the current state and feeds state, perception and
an optional input to the update transform.  The multi-step runner iterates
the step inside a sequential scan carrying the pair consisting of the engine
and the state, optionally collecting every intermediate state; when all
steps are requested the initial state is prepended to the collected states.

States, perceptions and inputs are opaque type parameters.  The input tensor
is accessed only through a view assigning to each axis an extent and a
slicing function, mirroring how the scan slices the input along the
designated axis.  The scan machinery of the underlying array library is
modelled by its documented contract: a negative number of iterations cannot
produce result arrays and fails; when an input is scanned over an axis, the
extent of that axis must equal the configured number of iterations or the
scan fails; when the input is absent there is nothing to slice and the scan
simply runs for the configured number of iterations, passing no input.
-/

namespace Cax

/-- A cellular automaton: a perceive module and an update module. -/
structure CA (S P I : Type) where
  perceive : S → P
  update : S → P → Option I → S

/-- One step of the CA: compute the perception of the current state, then
apply the update to state, perception and optional input. -/
def CA.step (ca : CA S P I) (state : S) (input : Option I) : S :=
  ca.update state (ca.perceive state) input

/-- Access to the input tensor: for each axis, its extent and the slice at a
given index along it. -/
structure TensorView (I : Type) where
  extent : Nat → I → Nat
  slice : Nat → I → Nat → I

/-- Failures of the multi-step runner. -/
inductive RunError where
  | negativeNumSteps
  | scanLengthMismatch
  deriving DecidableEq, Repr

/-- Result of the multi-step runner: the final state, or the whole
trajectory when all steps are requested. -/
inductive RunResult (S : Type) where
  | finalState (s : S)
  | trajectory (states : List S)
  deriving DecidableEq, Repr

/-- The per-iteration input the scan passes to the step function: with no
designated axis the input argument is broadcast unchanged to every
iteration; with a designated axis, iteration i receives slice i of the
input along that axis; with a designated axis but no input there is
nothing to slice and every iteration receives no input. -/
def scanInputs (tv : TensorView I) (input : Option I) (inAxis : Option Nat) :
    Nat → Option I :=
  match inAxis, input with
  | some ax, some x => fun i => some (tv.slice ax x i)
  | some _, none => fun _ => none
  | none, inp => fun _ => inp

/-- The scan accepts its configured length only when every scanned input has
that extent along the designated axis. -/
def scanLengthOk (tv : TensorView I) (input : Option I) (inAxis : Option Nat)
    (n : Nat) : Bool :=
  match inAxis, input with
  | some ax, some x => tv.extent ax x == n
  | _, _ => true

/-- The sequential scan: the carry is the pair of the engine and the state,
the body performs one step and emits the new state, and the final carry is
returned with the list of emitted states. -/
def scanList : List (Option I) → CA S P I × S → (CA S P I × S) × List S
  | [], c => (c, [])
  | x :: rest, (ca, s) =>
    let s2 := ca.step s x
    let r := scanList rest (ca, s2)
    (r.1, s2 :: r.2)

/-- The multi-step runner: run the CA for num_steps steps from first_state,
broadcasting or slicing the optional input according to input_in_axis, and
return the final state, or the trajectory with the initial state prepended
when all_steps is set. -/
def CA.run (tv : TensorView I) (ca : CA S P I) (first_state : S)
    (input : Option I) (num_steps : Int) (all_steps : Bool)
    (input_in_axis : Option Nat) : Except RunError (RunResult S) :=
  if num_steps < 0 then .error .negativeNumSteps
  else if scanLengthOk tv input input_in_axis num_steps.toNat then
    let xs := (List.range num_steps.toNat).map (scanInputs tv input input_in_axis)
    let r := scanList xs (ca, first_state)
    .ok (if all_steps then .trajectory (first_state :: r.2) else .finalState r.1.2)
  else .error .scanLengthMismatch

/-- Applying the step i times from s, step number k receiving input inputs k. -/
def iterStep (ca : CA S P I) (inputs : Nat → Option I) (s : S) : Nat → S
  | 0 => s
  | n + 1 => ca.step (iterStep ca inputs s n) (inputs n)

theorem scanList_fst_fst (xs : List (Option I)) (ca : CA S P I) (s : S) :
    (scanList xs (ca, s)).1.1 = ca := by
  induction xs generalizing s with
  | nil => rfl
  | cons x rest ih => simpa [scanList] using ih (ca.step s x)

theorem scanList_append (xs ys : List (Option I)) (c : CA S P I × S) :
    scanList (xs ++ ys) c =
      ((scanList ys (scanList xs c).1).1,
        (scanList xs c).2 ++ (scanList ys (scanList xs c).1).2) := by
  induction xs generalizing c with
  | nil => simp [scanList]
  | cons x rest ih =>
    obtain ⟨ca, s⟩ := c
    simp [scanList, ih]

theorem scanList_range_map (ca : CA S P I) (s : S) (f : Nat → Option I)
    (n : Nat) :
    scanList ((List.range n).map f) (ca, s) =
      ((ca, iterStep ca f s n),
        (List.range n).map (fun i => iterStep ca f s (i + 1))) := by
  induction n with
  | zero => simp [scanList, iterStep]
  | succ n ih =>
    rw [List.range_succ, List.map_append, scanList_append, ih]
    simp [scanList, iterStep, List.range_succ, scanList_fst_fst]

theorem scanLengthOk_none (tv : TensorView I) (input : Option I) (n : Nat) :
    scanLengthOk tv input none n = true := by
  cases input <;> rfl

theorem run_nat_ok (tv : TensorView I) (ca : CA S P I) (s : S)
    (input : Option I) (ax : Option Nat) (n : Nat) (alls : Bool)
    (h : scanLengthOk tv input ax n = true) :
    CA.run tv ca s input (↑n) alls ax =
      .ok (if alls then
          .trajectory (s ::
            (List.range n).map (fun i => iterStep ca (scanInputs tv input ax) s (i + 1)))
        else .finalState (iterStep ca (scanInputs tv input ax) s n)) := by
  have hn : ¬ ((n : Int) < 0) := by omega
  simp [CA.run, hn, h, scanList_range_map]

/-- Claim C2: running for zero steps returns the state unchanged, and with
all steps requested returns the one-element trajectory holding only the
initial state. -/
theorem run_zero_steps (tv : TensorView I) (ca : CA S P I) (s : S)
    (input : Option I) :
    CA.run tv ca s input 0 false none = .ok (.finalState s) ∧
    CA.run tv ca s input 0 true none = .ok (.trajectory [s]) := by
  constructor <;> cases input <;> rfl

/-- Claim C6: a single step is exactly the update applied to the state, the
perception of that state, and the optional input. -/
theorem step_is_update_of_perception (ca : CA S P I) (s : S)
    (input : Option I) :
    ca.step s input = ca.update s (ca.perceive s) input := rfl

/-- Claim C1: a run with all steps requested returns a trajectory of length
num_steps plus one whose element 0 is the initial state and whose element i
is the i-fold application of the step with the per-step inputs. -/
theorem run_all_steps_trajectory (tv : TensorView I) (ca : CA S P I) (s : S)
    (input : Option I) (ax : Option Nat) (n : Nat) (hn : 0 < n)
    (r : RunResult S) (h : CA.run tv ca s input (↑n) true ax = .ok r) :
    ∃ ts, r = .trajectory ts ∧ ts.length = n + 1 ∧
      ∀ i, i ≤ n → ts.getD i s = iterStep ca (scanInputs tv input ax) s i := by
  by_cases hok : scanLengthOk tv input ax n = true
  · rw [run_nat_ok tv ca s input ax n true hok] at h
    refine ⟨s :: (List.range n).map
        (fun i => iterStep ca (scanInputs tv input ax) s (i + 1)),
      by simpa using h.symm, by simp, ?_⟩
    intro i hi
    match i with
    | 0 => rfl
    | j + 1 =>
      have hj : j < n := by omega
      have hj2 : j < ((List.range n).map
          (fun i => iterStep ca (scanInputs tv input ax) s (i + 1))).length := by
        simpa using hj
      simp [List.getD, List.getElem?_eq_getElem hj2]
  · exfalso
    have hn2 : ¬ ((n : Int) < 0) := by omega
    simp [CA.run, hn2, hok] at h

theorem iterStep_const_add (ca : CA S P I) (inp : Option I) (s : S)
    (a b : Nat) :
    iterStep ca (fun _ => inp) s (a + b) =
      iterStep ca (fun _ => inp) (iterStep ca (fun _ => inp) s a) b := by
  induction b with
  | zero => rfl
  | succ b ih => simp [Nat.add_succ, iterStep, ih]

/-- Claim C3: with a constant or absent input, running a plus b steps
equals running b steps from the result of running a steps. -/
theorem run_composition (tv : TensorView I) (ca : CA S P I) (s s2 : S)
    (input : Option I) (a b : Nat)
    (h : CA.run tv ca s input (↑a) false none = .ok (.finalState s2)) :
    CA.run tv ca s input (↑(a + b)) false none =
      CA.run tv ca s2 input (↑b) false none := by
  rw [run_nat_ok tv ca s input none a false (scanLengthOk_none tv input a)] at h
  have hs2 : s2 = iterStep ca (scanInputs tv input none) s a := by
    simpa using h.symm
  rw [run_nat_ok tv ca s input none (a + b) false (scanLengthOk_none tv input _),
    run_nat_ok tv ca s2 input none b false (scanLengthOk_none tv input _), hs2]
  have hconst : scanInputs tv input none = fun _ => input := by
    cases input <;> rfl
  simp [hconst, iterStep_const_add]

/-- Claim C4: with no designated input axis the identical input is passed to
the step at every transition; with a designated axis, transition i receives
slice i of the input along that axis. -/
theorem run_input_modes (tv : TensorView I) (ca : CA S P I) (s : S) (x : I)
    (n ax : Nat) (hex : tv.extent ax x = n) :
    CA.run tv ca s (some x) (↑n) false none =
      .ok (.finalState (iterStep ca (fun _ => some x) s n)) ∧
    CA.run tv ca s (some x) (↑n) false (some ax) =
      .ok (.finalState (iterStep ca (fun i => some (tv.slice ax x i)) s n)) := by
  constructor
  · rw [run_nat_ok tv ca s (some x) none n false (scanLengthOk_none tv _ n)]
    rfl
  · rw [run_nat_ok tv ca s (some x) (some ax) n false
      (by simp [scanLengthOk, hex])]
    rfl

/-- Claim C5: with a designated input axis whose extent is smaller than the
number of steps, the run fails with the scan length mismatch error. -/
theorem run_short_input_error (tv : TensorView I) (ca : CA S P I) (s : S)
    (x : I) (n ax : Nat) (alls : Bool) (h : tv.extent ax x < n) :
    CA.run tv ca s (some x) (↑n) alls (some ax) =
      .error .scanLengthMismatch := by
  have hn : ¬ ((n : Int) < 0) := by omega
  have hne : tv.extent ax x ≠ n := Nat.ne_of_lt h
  simp [CA.run, hn, scanLengthOk, hne]

/-- Claim C9, amended: a negative number of steps fails with the negative
step count error; a designated input axis with an absent input does not
fail, the run behaves exactly as with no designated axis. -/
theorem run_config_errors (tv : TensorView I) (ca : CA S P I) (s : S)
    (input : Option I) (k : Int) (hk : k < 0) (alls : Bool) (ax : Option Nat)
    (n : Int) (ax2 : Nat) :
    CA.run tv ca s input k alls ax = .error .negativeNumSteps ∧
    CA.run tv ca s none n alls (some ax2) =
      CA.run tv ca s none n alls none := by
  constructor
  · simp [CA.run, hk]
  · simp only [CA.run]
    rfl

/-- Claim C10: the scan threads the engine through its carry unchanged:
after any run the carried engine, with its perceive and update sub-units,
is the same as before. -/
theorem scan_preserves_engine (xs : List (Option I)) (ca : CA S P I)
    (s : S) :
    (scanList xs (ca, s)).1.1 = ca ∧
    ((scanList xs (ca, s)).1.1).perceive = ca.perceive ∧
    ((scanList xs (ca, s)).1.1).update = ca.update := by
  refine ⟨scanList_fst_fst xs ca s, ?_, ?_⟩ <;> rw [scanList_fst_fst]

/-- A concrete tensor view on natural numbers, for concrete evaluations. -/
def natTV : TensorView Nat :=
  ⟨fun _ x => x, fun _ x i => x + i⟩

/-- A concrete engine counting steps, for concrete evaluations. -/
def incCA : CA Nat Unit Nat :=
  ⟨fun _ => (), fun s _ _ => s + 1⟩

/-- Claim C9, counterexample: with the input axis designated but the input
absent, the run returns a normal result instead of failing. -/
theorem run_missing_input_cex :
    CA.run natTV incCA 0 none 1 false (some 0) = .ok (.finalState 1) := rfl

theorem run_all_steps_trajectory_witness :
    (0 < 2 ∧
      CA.run natTV incCA 0 none ((2 : Nat) : Int) true none =
        .ok (.trajectory [0, 1, 2])) ∧
    (∃ ts, (RunResult.trajectory [0, 1, 2] : RunResult Nat) = .trajectory ts ∧
      ts.length = 2 + 1 ∧
      ∀ i, i ≤ 2 → ts.getD i 0 = iterStep incCA (scanInputs natTV none none) 0 i) :=
  ⟨⟨by decide, rfl⟩,
    run_all_steps_trajectory natTV incCA 0 none none 2 (by decide)
      (.trajectory [0, 1, 2]) rfl⟩

theorem run_composition_witness :
    CA.run natTV incCA 0 none ((1 : Nat) : Int) false none =
      .ok (.finalState 1) ∧
    CA.run natTV incCA 0 none ((1 + 2 : Nat) : Int) false none =
      CA.run natTV incCA 1 none ((2 : Nat) : Int) false none :=
  ⟨rfl, run_composition natTV incCA 0 1 none 1 2 rfl⟩

theorem run_input_modes_witness :
    natTV.extent 0 2 = 2 ∧
    (CA.run natTV incCA 0 (some 2) ((2 : Nat) : Int) false none =
        .ok (.finalState (iterStep incCA (fun _ => some 2) 0 2)) ∧
      CA.run natTV incCA 0 (some 2) ((2 : Nat) : Int) false (some 0) =
        .ok (.finalState
          (iterStep incCA (fun i => some (natTV.slice 0 2 i)) 0 2))) :=
  ⟨rfl, run_input_modes natTV incCA 0 2 2 0 rfl⟩

theorem run_short_input_error_witness :
    natTV.extent 0 1 < 2 ∧
    CA.run natTV incCA 0 (some 1) ((2 : Nat) : Int) false (some 0) =
      .error .scanLengthMismatch :=
  ⟨by decide, run_short_input_error natTV incCA 0 1 2 0 false (by decide)⟩

theorem run_config_errors_witness :
    (-1 : Int) < 0 ∧
    (CA.run natTV incCA 0 none (-1) false none = .error .negativeNumSteps ∧
      CA.run natTV incCA 0 none 1 false (some 0) =
        CA.run natTV incCA 0 none 1 false none) :=
  ⟨by decide, run_config_errors natTV incCA 0 none (-1) (by decide) false none 1 0⟩

/-!
Tensor model for the unsupervised variant.  A tensor is a shape together
with its elements flattened in row-major order; scalar values are rational
numbers.  Elementwise binary operations follow the broadcasting rule of the
array library: shapes are aligned from the trailing axis, the shorter shape
is padded with size-one axes, two sizes are compatible when they are equal
or one of them is one, and an operand contributes index zero along any axis
where its size is one.  An incompatible pair of shapes makes the operation
fail.
-/

/-- A tensor: a shape and the row-major flattened data. -/
structure Tensor where
  shape : List Nat
  data : List ℚ
  deriving DecidableEq, Repr

/-- Broadcast two shapes given in reversed order, trailing axis first. -/
def bcastDimsRev : List Nat → List Nat → Option (List Nat)
  | [], l => some l
  | l, [] => some l
  | a :: as, b :: bs =>
    if a = b then (bcastDimsRev as bs).map (a :: ·)
    else if a = 1 then (bcastDimsRev as bs).map (b :: ·)
    else if b = 1 then (bcastDimsRev as bs).map (a :: ·)
    else none

/-- Broadcast two shapes, or fail when they are incompatible. -/
def broadcastShapes (s1 s2 : List Nat) : Option (List Nat) :=
  (bcastDimsRev s1.reverse s2.reverse).map List.reverse

/-- The multi-index of flat position i in a tensor of the given shape. -/
def unflattenIx : List Nat → Nat → List Nat
  | [], _ => []
  | _ :: ds, i => i / ds.prod :: unflattenIx ds (i % ds.prod)

/-- The flat position of a multi-index in a tensor of the given shape. -/
def flattenIx : List Nat → List Nat → Nat
  | _ :: ds, i :: is => i * ds.prod + flattenIx ds is
  | _, _ => 0

/-- The multi-index into a broadcast operand of shape s corresponding to a
multi-index ix of the broadcast result: the leading axes of ix beyond the
rank of s are dropped, and axes of size one contribute index zero. -/
def broadcastIx (s ix : List Nat) : List Nat :=
  (s.zip (ix.drop (ix.length - s.length))).map fun p => if p.1 = 1 then 0 else p.2

/-- The element of a tensor at a multi-index. -/
def Tensor.get (t : Tensor) (ix : List Nat) : ℚ :=
  t.data.getD (flattenIx t.shape ix) 0

/-- Map a scalar function over every element of a tensor. -/
def Tensor.map (f : ℚ → ℚ) (t : Tensor) : Tensor :=
  ⟨t.shape, t.data.map f⟩

/-- Elementwise binary operation with broadcasting. -/
def ewBinop (f : ℚ → ℚ → ℚ) (a b : Tensor) : Option Tensor :=
  match broadcastShapes a.shape b.shape with
  | none => none
  | some sh =>
    some ⟨sh, (List.range sh.prod).map fun i =>
      let ix := unflattenIx sh i
      f (a.get (broadcastIx a.shape ix)) (b.get (broadcastIx b.shape ix))⟩

/-- The scalar primitives of the array library used by encode: the scalar
exponential, and the standard-normal sample at a flat position of a tensor
of a given shape drawn from a key, a deterministic function of the key. -/
structure VAEOps (K : Type) where
  exp : ℚ → ℚ
  normal : K → List Nat → Nat → ℚ

/-- The unsupervised variant: a CA together with a latent encoder mapping a
target tensor to the pair of the mean and the log-variance. -/
structure UnsupervisedCA (S P I K : Type) extends CA S P I where
  encoder : Tensor → Tensor × Tensor

/-- Encode a target: obtain mean and log-variance from the encoder, draw
standard-normal noise of the shape of the mean from the key, and return
mean plus noise times the exponential of half the log-variance. -/
def UnsupervisedCA.encode (m : UnsupervisedCA S P I K) (ops : VAEOps K)
    (target : Tensor) (key : K) : Option Tensor :=
  let mean := (m.encoder target).1
  let logvar := (m.encoder target).2
  let noise : Tensor :=
    ⟨mean.shape, (List.range mean.shape.prod).map (ops.normal key mean.shape)⟩
  match ewBinop (· * ·) noise
      (Tensor.map ops.exp (Tensor.map (fun v => (1 / 2 : ℚ) * v) logvar)) with
  | none => none
  | some p => ewBinop (· + ·) mean p

theorem bcastDimsRev_self (l : List Nat) : bcastDimsRev l l = some l := by
  induction l with
  | nil => rfl
  | cons a as ih => simp [bcastDimsRev, ih]

theorem broadcastShapes_self (s : List Nat) : broadcastShapes s s = some s := by
  simp [broadcastShapes, bcastDimsRev_self]

theorem unflattenIx_length (s : List Nat) (i : Nat) :
    (unflattenIx s i).length = s.length := by
  induction s generalizing i with
  | nil => rfl
  | cons d ds ih => simp [unflattenIx, ih]

theorem broadcastIx_cons (d : Nat) (ds : List Nat) (c : Nat) (cs : List Nat)
    (h : cs.length = ds.length) :
    broadcastIx (d :: ds) (c :: cs) =
      (if d = 1 then 0 else c) :: broadcastIx ds cs := by
  simp [broadcastIx, h]

theorem flattenIx_roundtrip (s : List Nat) (i : Nat) (h : i < s.prod) :
    flattenIx s (broadcastIx s (unflattenIx s i)) = i := by
  induction s generalizing i with
  | nil =>
    simp only [List.prod_nil, Nat.lt_one_iff] at h
    subst h
    rfl
  | cons d ds ih =>
    rw [List.prod_cons] at h
    rcases Nat.eq_zero_or_pos ds.prod with h0 | hpos
    · rw [h0, Nat.mul_zero] at h
      omega
    · rw [unflattenIx, broadcastIx_cons d ds _ _ (unflattenIx_length ds _),
        flattenIx, ih _ (Nat.mod_lt _ hpos)]
      by_cases hd : d = 1
      · subst hd
        rw [Nat.one_mul] at h
        simp [Nat.mod_eq_of_lt h]
      · simp only [hd, if_false]
        rw [Nat.mul_comm]
        exact Nat.div_add_mod i ds.prod

theorem getD_range_map {α : Type} (f : Nat → α) (n i : Nat) (d : α)
    (h : i < n) :
    (((List.range n).map f).getD i d) = f i := by
  rw [List.getD_eq_getElem ((List.range n).map f) d (by simpa using h)]
  simp

theorem getD_map {α : Type} (g : α → α) (l : List α) (i : Nat)
    (h : i < l.length) (d d2 : α) :
    ((l.map g).getD i d) = g (l.getD i d2) := by
  rw [List.getD_eq_getElem _ d (by simpa using h), List.getD_eq_getElem _ d2 h]
  simp

theorem ewBinop_same_shape (f : ℚ → ℚ → ℚ) (sh : List Nat) (da db : List ℚ) :
    ewBinop f ⟨sh, da⟩ ⟨sh, db⟩ =
      some ⟨sh, (List.range sh.prod).map fun i =>
        f (da.getD i 0) (db.getD i 0)⟩ := by
  simp only [ewBinop, broadcastShapes_self]
  refine congrArg some (congrArg (Tensor.mk sh) ?_)
  refine List.map_congr_left fun i hi => ?_
  have hi2 : i < sh.prod := List.mem_range.mp hi
  simp only [Tensor.get, flattenIx_roundtrip sh i hi2]

/-- Claim C7: encode returns the mean plus standard-normal noise of the
shape of the mean times the exponential of half the log-variance,
elementwise, whenever the encoder returns mean and log-variance of a common
shape. -/
theorem encode_reparameterization (m : UnsupervisedCA S P I K)
    (ops : VAEOps K) (target : Tensor) (key : K)
    (hsh : (m.encoder target).1.shape = (m.encoder target).2.shape)
    (hwf : (m.encoder target).2.data.length = (m.encoder target).2.shape.prod) :
    ∃ t, m.encode ops target key = some t ∧
      t.shape = (m.encoder target).1.shape ∧
      ∀ i, i < (m.encoder target).1.shape.prod →
        t.data.getD i 0 = (m.encoder target).1.data.getD i 0 +
          ops.normal key (m.encoder target).1.shape i *
            ops.exp ((1 / 2) * (m.encoder target).2.data.getD i 0) := by
  rcases hq : m.encoder target with ⟨⟨ms, md⟩, ⟨ls, ld⟩⟩
  rw [hq] at hsh hwf
  simp only at hsh hwf
  subst hsh
  simp only [hq]
  simp only [UnsupervisedCA.encode, hq, Tensor.map]
  rw [ewBinop_same_shape (· * ·) ms
    ((List.range ms.prod).map (ops.normal key ms))
    ((ld.map fun v => (1 / 2 : ℚ) * v).map ops.exp)]
  simp only []
  rw [ewBinop_same_shape (· + ·) ms md]
  refine ⟨_, rfl, rfl, ?_⟩
  intro i hi
  simp only at hi ⊢
  have hld : i < ld.length := by rw [hwf]; exact hi
  rw [getD_range_map _ _ _ _ hi, getD_range_map _ _ _ _ hi,
    getD_range_map _ _ _ _ hi,
    getD_map ops.exp _ _ (by simpa using hld) 0 0,
    getD_map _ _ _ hld 0 0]

/-- Concrete primitives: the exponential is the identity and the normal
sample at flat position i under key k has value k plus i. -/
def cVAEOps : VAEOps Nat :=
  ⟨fun v => v, fun k _ i => (k : ℚ) + i⟩

/-- A concrete unsupervised engine whose encoder returns mean and
log-variance of the same shape. -/
def cUCA : UnsupervisedCA Nat Unit Nat Nat :=
  { perceive := fun _ => ()
    update := fun s _ _ => s
    encoder := fun _ => (⟨[2], [3, 4]⟩, ⟨[2], [0, 2]⟩) }

theorem encode_reparameterization_witness :
    ((cUCA.encoder ⟨[], []⟩).1.shape = (cUCA.encoder ⟨[], []⟩).2.shape ∧
      (cUCA.encoder ⟨[], []⟩).2.data.length =
        (cUCA.encoder ⟨[], []⟩).2.shape.prod) ∧
    (∃ t, cUCA.encode cVAEOps ⟨[], []⟩ 5 = some t ∧
      t.shape = (cUCA.encoder ⟨[], []⟩).1.shape ∧
      ∀ i, i < (cUCA.encoder ⟨[], []⟩).1.shape.prod →
        t.data.getD i 0 = (cUCA.encoder ⟨[], []⟩).1.data.getD i 0 +
          cVAEOps.normal 5 (cUCA.encoder ⟨[], []⟩).1.shape i *
            cVAEOps.exp ((1 / 2) * (cUCA.encoder ⟨[], []⟩).2.data.getD i 0)) :=
  ⟨⟨rfl, rfl⟩, encode_reparameterization cUCA cVAEOps ⟨[], []⟩ 5 rfl rfl⟩

/-- A concrete unsupervised engine whose encoder returns mean and
log-variance of different but broadcast-compatible shapes. -/
def cUCA2 : UnsupervisedCA Nat Unit Nat Nat :=
  { perceive := fun _ => ()
    update := fun s _ _ => s
    encoder := fun _ => (⟨[2], [3, 4]⟩, ⟨[1], [0]⟩) }

/-- Claim C8, counterexample: an encoder returning mean and log-variance of
different shapes on which encode nevertheless returns a value, because the
shapes are broadcast-compatible. -/
theorem encode_mismatched_shapes_cex :
    (cUCA2.encoder ⟨[], []⟩).1.shape ≠ (cUCA2.encoder ⟨[], []⟩).2.shape ∧
    cUCA2.encode cVAEOps ⟨[], []⟩ 0 ≠ none := by
  constructor
  · decide
  · intro h
    simp only [UnsupervisedCA.encode, cUCA2, cVAEOps] at h
    revert h
    decide

theorem ewBinop_eq_none_iff (f : ℚ → ℚ → ℚ) (a b : Tensor) :
    ewBinop f a b = none ↔ broadcastShapes a.shape b.shape = none := by
  cases h : broadcastShapes a.shape b.shape <;> simp [ewBinop, h]

theorem ewBinop_shape (f : ℚ → ℚ → ℚ) (a b t : Tensor)
    (h : ewBinop f a b = some t) :
    broadcastShapes a.shape b.shape = some t.shape := by
  cases hb : broadcastShapes a.shape b.shape with
  | none => simp [ewBinop, hb] at h
  | some sh =>
    simp only [ewBinop, hb, Option.some.injEq] at h
    rw [← h]

theorem bcastDimsRev_cons (a b : Nat) (as bs : List Nat) :
    bcastDimsRev (a :: as) (b :: bs) =
      if a = b then (bcastDimsRev as bs).map (a :: ·)
      else if a = 1 then (bcastDimsRev as bs).map (b :: ·)
      else if b = 1 then (bcastDimsRev as bs).map (a :: ·)
      else none := rfl

theorem bcastDimsRev_absorb (ra rb rc : List Nat)
    (h : bcastDimsRev ra rb = some rc) :
    bcastDimsRev ra rc = some rc := by
  induction ra generalizing rb rc with
  | nil =>
    cases rb with
    | nil =>
      simp only [bcastDimsRev, Option.some.injEq] at h
      subst h
      rfl
    | cons b bs =>
      simp only [bcastDimsRev, Option.some.injEq] at h
      subst h
      rfl
  | cons a as ih =>
    cases rb with
    | nil =>
      have hra : bcastDimsRev (a :: as) [] = some (a :: as) := rfl
      rw [hra, Option.some.injEq] at h
      subst h
      exact bcastDimsRev_self _
    | cons b bs =>
      rw [bcastDimsRev_cons] at h
      by_cases hab : a = b
      · rw [if_pos hab] at h
        obtain ⟨cs, hcs, rfl⟩ := Option.map_eq_some'.mp h
        rw [bcastDimsRev_cons, if_pos rfl, ih bs cs hcs, Option.map_some']
      · rw [if_neg hab] at h
        by_cases ha1 : a = 1
        · rw [if_pos ha1] at h
          obtain ⟨cs, hcs, rfl⟩ := Option.map_eq_some'.mp h
          have hba : a ≠ b := hab
          rw [bcastDimsRev_cons, if_neg hab, if_pos ha1, ih bs cs hcs,
            Option.map_some']
        · rw [if_neg ha1] at h
          by_cases hb1 : b = 1
          · rw [if_pos hb1] at h
            obtain ⟨cs, hcs, rfl⟩ := Option.map_eq_some'.mp h
            rw [bcastDimsRev_cons, if_pos rfl, ih bs cs hcs, Option.map_some']
          · rw [if_neg hb1] at h
            exact absurd h (by simp)

theorem broadcastShapes_absorb (s1 s2 c : List Nat)
    (h : broadcastShapes s1 s2 = some c) :
    broadcastShapes s1 c = some c := by
  obtain ⟨rc, hrc, hrev⟩ := Option.map_eq_some'.mp h
  have hcr : c.reverse = rc := by rw [← hrev, List.reverse_reverse]
  unfold broadcastShapes
  rw [hcr, bcastDimsRev_absorb _ _ _ hrc, Option.map_some', hrev]

/-- Claim C8, amended: encode fails exactly when the shapes of the mean and
the log-variance returned by the encoder are not broadcast-compatible; in
particular it returns a value on any broadcast-compatible pair of shapes,
equal or not. -/
theorem encode_none_iff_not_broadcastable (m : UnsupervisedCA S P I K)
    (ops : VAEOps K) (target : Tensor) (key : K) :
    m.encode ops target key = none ↔
      broadcastShapes (m.encoder target).1.shape
        (m.encoder target).2.shape = none := by
  simp only [UnsupervisedCA.encode]
  cases hp : ewBinop (· * ·)
      ⟨(m.encoder target).1.shape,
        (List.range (m.encoder target).1.shape.prod).map
          (ops.normal key (m.encoder target).1.shape)⟩
      (Tensor.map ops.exp (Tensor.map (fun v => (1 / 2 : ℚ) * v)
        (m.encoder target).2)) with
  | none =>
    constructor
    · intro _
      simpa using (ewBinop_eq_none_iff _ _ _).mp hp
    · intro _
      rfl
  | some p =>
    have hshp := ewBinop_shape _ _ _ _ hp
    simp only [Tensor.map] at hshp
    have habs := broadcastShapes_absorb _ _ _ hshp
    constructor
    · intro hcontra
      rw [ewBinop_eq_none_iff, habs] at hcontra
      exact Option.noConfusion hcontra
    · intro hcontra
      rw [hcontra] at hshp
      exact Option.noConfusion hshp

end Cax
